import Mathlib

/-!
# Verification of the bounded story tracker (src/main.go)

Shallow embedding of the story-tracking core of `src/main.go`:
the bounded FIFO tracker (`limitQueue`), the ingestion consumer
(`storyLister`), the reconciler (`storyRemover`), domain derivation
(`urlToDomain`), and the top-stories truncation (`fetchTopStories`).

Go `int`/`int64` values stay well inside 64 bits for everything the
theorems touch, so machine integers are modelled as `Int` without
wrap-around.  The Go `map[int]*item` is modelled as an association list
together with `storeLookup`; theorems speak about the map only through
`storeLookup` and its length, so the representation order is internal.
-/

set_option autoImplicit false

deriving instance DecidableEq for Except

namespace HNTrack

/-- Constants from src/main.go lines 36-44. -/
def frontPageNumArticles : Nat := 30

def eightHrs : Int := 8 * 60 * 60

def humanTrackingLimit : Nat := 300

def itemFromFile : String := "file"

def itemFromHN : String := "hn"

/-- The Go `type item struct` is referenced by src/main.go but its declaration is
not under src/.  Modelled from the spec: §3 DATA MODEL lists the fields
`ID`, `URL`, `Added` (seconds since epoch), `Domain`, `From`,
`DiscussLink`; the field uses in src/main.go (lines 372-399, 418-449)
match these names and types. -/
structure item where
  ID : Int
  URL : String
  Added : Int
  Domain : String
  From : String
  DiscussLink : String
deriving Repr, DecidableEq

/-- The `changeAction` type from src/main.go lines 49-54. -/
inductive changeAction where
  | added
  | removed
deriving Repr, DecidableEq

/-- The Go `type change struct` from src/main.go lines 78-81 (the `*item`
pointer is modelled by value). -/
structure change where
  Action : changeAction
  Item : item
deriving Repr, DecidableEq

/-- Lookup in the association-list model of Go's `map[int]*item`:
`store[id]` returning `none` when the key is absent. -/
def storeLookup : List (Int × item) → Int → Option item
  | [], _ => none
  | (k, v) :: rest, k2 => if k = k2 then some v else storeLookup rest k2

/-- Go map assignment `store[id] = it`: overwrite in place when the key
is present, otherwise add the binding (appended, so that the list order
tracks insertion order). -/
def storeSet : List (Int × item) → Int → item → List (Int × item)
  | [], k, v => [(k, v)]
  | (k2, w) :: rest, k, v =>
      if k2 = k then (k2, v) :: rest else (k2, w) :: storeSet rest k v

/-- Go `delete(store, id)`: drop the binding for `id`. -/
def storeDel : List (Int × item) → Int → List (Int × item)
  | [], _ => []
  | (k2, w) :: rest, k =>
      if k2 = k then storeDel rest k else (k2, w) :: storeDel rest k

/-- The Go `type limitQueue struct` is referenced by src/main.go (lines 153-157,
387, 448) but its declaration is not under src/.  Modelled from the
spec: §3 "Tracker (bounded ordered map) — capacity C", with fields
`limit`, `keys` (ordered ID sequence) and `store` (ID → Item map), the
same fields the literal at src/main.go lines 153-157 initialises. -/
structure limitQueue where
  limit : Nat
  keys : List Int
  store : List (Int × item)
deriving Repr, DecidableEq

/-- The initial tracker from src/main.go lines 153-157: capacity
`humanTrackingLimit`, empty keys, empty store. -/
def lqInit (limit : Nat) : limitQueue :=
  { limit := limit, keys := [], store := [] }

/-- Method `limitQueue.add` is called at src/main.go line 387 but its body is
not under src/.  Modelled from the spec: §3 "`add(item)`: if `item.ID`
already present, overwrite the Item in place (keys order unchanged) and
return nothing removed; else append the ID, insert into `store`, and if
size now exceeds `C`, remove the oldest key/Item (index 0) and return it
as the evicted Item." -/
def lqAdd (lq : limitQueue) (it : item) : limitQueue × Option item :=
  match storeLookup lq.store it.ID with
  | some _ => ({ lq with store := storeSet lq.store it.ID it }, none)
  | none =>
      if lq.limit < (storeSet lq.store it.ID it).length then
        match lq.keys ++ [it.ID] with
        | [] =>
            ({ limit := lq.limit, keys := [],
               store := storeSet lq.store it.ID it }, none)
        | k0 :: rest =>
            ({ limit := lq.limit, keys := rest,
               store := storeDel (storeSet lq.store it.ID it) k0 },
              storeLookup (storeSet lq.store it.ID it) k0)
      else
        ({ limit := lq.limit, keys := lq.keys ++ [it.ID],
           store := storeSet lq.store it.ID it }, none)

/-- Method `limitQueue.remove` is called at src/main.go line 448 but its body is
not under src/.  Modelled from the spec: §3 "`remove(id)`: deletes the
key and its store entry unconditionally; no-op if absent." -/
def lqRemove (lq : limitQueue) (id : Int) : limitQueue :=
  { limit := lq.limit
    keys := lq.keys.filter (fun k => k != id)
    store := storeDel lq.store id }

/-- Well-formedness carried through every tracker mutation: the store
keys, in order, are exactly `keys`; the keys are distinct; the size is
within capacity. -/
def lqWF (lq : limitQueue) : Prop :=
  lq.store.map Prod.fst = lq.keys ∧ lq.keys.Nodup ∧ lq.keys.length ≤ lq.limit

instance (lq : limitQueue) : Decidable (lqWF lq) := by
  unfold lqWF; infer_instance

/-- Folding a sequence of `add` calls over a tracker state
(`storyLister`'s repeated `app.lq.add`). -/
def applyAdds (lq : limitQueue) (its : List item) : limitQueue :=
  its.foldl (fun s it => (lqAdd s it).1) lq

/-- Go `net/url` rejects URLs containing an ASCII control byte
(`stringContainsCTLByte`). -/
def isCtlChar (c : Char) : Bool := c.toNat < 32 || c.toNat == 127

/-- Does the pattern match at the head of the character list? -/
def matchesAt : List Char → List Char → Bool
  | [], _ => true
  | _ :: _, [] => false
  | p :: ps, c :: cs => p == c && matchesAt ps cs

/-- Go `net/url.getScheme`: position of the colon ending a scheme, if
the input starts with one.  Alphanumeric/'+'/'-'/'.' characters may
continue a scheme but not start it; any other character before a colon
means there is no scheme. -/
def findScheme : List Char → Nat → Option Nat
  | [], _ => none
  | c :: rest, i =>
      if c.isAlpha then findScheme rest (i + 1)
      else if c.isDigit || c == '+' || c == '-' || c == '.' then
        if i = 0 then none else findScheme rest (i + 1)
      else if c == ':' then some i
      else none

/-- The host part of an authority is what follows the last '@'
(Go `net/url.parseAuthority`). -/
def afterLastAt (cs : List Char) : List Char :=
  (cs.reverse.takeWhile (fun c => c != '@')).reverse

/-- Go `net/url.splitHostPort`: strip a trailing `:digits` port (the
digits may be empty).  IPv6 bracket syntax is not modelled; no claim
touches bracketed hosts. -/
def stripPort (cs : List Char) : List Char :=
  let revTail := cs.reverse.takeWhile (fun c => c != ':')
  if revTail.length = cs.length then cs
  else if revTail.all Char.isDigit then
    (cs.reverse.drop (revTail.length + 1)).reverse
  else cs

/-- Hostname of the part of a URL following the scheme: Go `net/url`
parses an authority only after a leading `//`; otherwise the host is
empty (a scheme-less `example.com/x` is all path). -/
def hostOfRest (cs : List Char) : List Char :=
  match cs with
  | '/' :: '/' :: rest =>
      let auth := rest.takeWhile (fun c => !(c == '/' || c == '?' || c == '#'))
      stripPort (afterLastAt auth)
  | _ => []

/-- Composition `url.Parse(link)` followed by `u.Hostname()` as used at src/main.go
lines 252-256, modelling Go `net/url` on control-character errors,
scheme detection, authority and port stripping. -/
def goHostname (link : String) : Except String (List Char) :=
  if link.toList.any isCtlChar then
    Except.error "net/url: invalid control character in URL"
  else
    match findScheme link.toList 0 with
    | some 0 => Except.error "missing protocol scheme"
    | some (i + 1) => Except.ok (hostOfRest (link.toList.drop (i + 2)))
    | none => Except.ok (hostOfRest link.toList)

/-- Go `strings.Split(s, ".")`. -/
def splitOnDot : List Char → List (List Char)
  | [] => [[]]
  | c :: rest =>
      if c == '.' then [] :: splitOnDot rest
      else
        match splitOnDot rest with
        | [] => [[c]]
        | h :: t => (c :: h) :: t

/-- The patterns of the `strings.NewReplacer` at src/main.go line 250,
in argument order; every replacement is the empty string. -/
def replPats : List (List Char) :=
  ["http://".toList, "https://".toList, "www.".toList,
    "www2.".toList, "www3.".toList]

/-- Go `strings.Replacer.Replace`: scan left to right, at each position
try the patterns in argument order, replace a match (with "") without
overlapping, else keep the character.  Fuel is the input length, enough
for every step since each step consumes at least one character. -/
def goReplaceAux : Nat → List Char → List Char
  | _, [] => []
  | 0, cs => cs
  | fuel + 1, c :: cs =>
      match replPats.find? (fun p => matchesAt p (c :: cs)) with
      | some p => goReplaceAux fuel (List.drop p.length (c :: cs))
      | none => c :: goReplaceAux fuel cs

def goReplace (cs : List Char) : List Char := goReplaceAux cs.length cs

/-- Function `urlToDomain` from src/main.go lines 251-263: parse the URL, split
the hostname on '.', join the last two labels if there are at least
two, else run the scheme/`www` replacer over the raw hostname. -/
def urlToDomain (link : String) : Except String String :=
  match goHostname link with
  | Except.error e => Except.error e
  | Except.ok host =>
      let parts := splitOnDot host
      if 2 ≤ parts.length then
        Except.ok (String.mk
          (parts.getD (parts.length - 2) [] ++
            '.' :: parts.getD (parts.length - 1) []))
      else
        Except.ok (String.mk (goReplace host))

/-- Go `fmt.Sprintf(hnPostLink, item.ID)` with the constant at src/main.go
line 35. -/
def hnPostLink (id : Int) : String :=
  "https://news.ycombinator.com/item?id=" ++ toString id

/-- src/main.go lines 372-374: set `Added` to the current time only when
unset (zero). -/
def setAdded (now : Int) (it : item) : item :=
  if it.Added = 0 then { it with Added := now } else it

/-- src/main.go lines 375-382: derive `Domain` from `URL` when `Domain`
is empty; on a `urlToDomain` error the error is only logged and the item
is left unchanged. -/
def setDomain (it : item) : item :=
  if it.Domain = "" then
    match urlToDomain it.URL with
    | Except.ok d => { it with Domain := d }
    | Except.error _ => it
  else it

/-- src/main.go lines 383-385: set `DiscussLink` for every item not
sourced from the file. -/
def setDiscussLink (it : item) : item :=
  if it.From ≠ itemFromFile then { it with DiscussLink := hnPostLink it.ID }
  else it

/-- The normalization the ingestion consumer (`storyLister`) applies to
each incoming item, src/main.go lines 372-385. -/
def normalizeItem (now : Int) (it : item) : item :=
  setDiscussLink (setDomain (setAdded now it))

/-- src/main.go lines 311-317 (`serverInputsToUserFetcher`): a
file-sourced item with empty `From` is tagged `itemFromFile` before
being sent into the ingestion channel. -/
def tagFileItem (it : item) : item :=
  if it.From = "" then { it with From := itemFromFile } else it

/-- One pass of `storyLister`'s per-item body (src/main.go lines
366-401): normalize, `add` to the tracker, and publish the `removed`
change (if an item was evicted) followed by the `added` change.  The
change channel is modelled as the ordered list of published events. -/
def processItem (now : Int) (st : limitQueue) (it0 : item) :
    limitQueue × item × List change :=
  match lqAdd st (normalizeItem now it0) with
  | (st2, some removed) =>
      (st2, normalizeItem now it0,
        [⟨changeAction.removed, removed⟩,
          ⟨changeAction.added, normalizeItem now it0⟩])
  | (st2, none) =>
      (st2, normalizeItem now it0, [⟨changeAction.added, normalizeItem now it0⟩])

/-- The truncation step of `fetchTopStories` (src/main.go lines
283-287) applied to the decoded remote ID list: clamp the desired count
to the list length and slice.  `limit` is a desired count, hence a
natural number (the caller passes `frontPageNumArticles = 30`). -/
def fetchTopStoriesTrunc (limit : Nat) (items : List Int) : List Int :=
  items.take (if items.length < limit then items.length else limit)

/-- src/main.go lines 423-440: a tracked item is "still at top" when,
for file-sourced items, its ID occurs among the file items, and
otherwise when its ID occurs in the remote top list. -/
def stillAtTop (topItems : List Int) (fileItems : List item)
    (id : Int) (it : item) : Bool :=
  if it.From = itemFromFile then fileItems.any (fun f => id == f.ID)
  else topItems.any (fun tid => tid == id)

/-- The eviction test of src/main.go line 442:
`!stillAtTop && time.Since(time.Unix(Added, 0)).Seconds() > eightHrs`,
at whole-second granularity. -/
def shouldEvict (topItems : List Int) (fileItems : List item)
    (now : Int) (id : Int) (it : item) : Bool :=
  !stillAtTop topItems fileItems id it && decide (eightHrs < now - it.Added)

/-- The sweep loop of `storyRemover` (src/main.go lines 418-450) over a
given enumeration of the store entries: for each entry meeting the
eviction test, publish `ChangeEvent{removed, store[id]}` and then
`remove(id)`.  Go's map iteration order is unspecified; the enumeration
is a parameter and every property proved is order-insensitive.
Cancellation is not signalled during the pass. -/
def removerLoop (topItems : List Int) (fileItems : List item) (now : Int) :
    List (Int × item) → limitQueue → limitQueue × List change
  | [], st => (st, [])
  | (id, it) :: rest, st =>
      if shouldEvict topItems fileItems now id it then
        ((removerLoop topItems fileItems now rest (lqRemove st id)).1,
          (match storeLookup st.store id with
            | some cur => [(⟨changeAction.removed, cur⟩ : change)]
            | none => []) ++
            (removerLoop topItems fileItems now rest (lqRemove st id)).2)
      else removerLoop topItems fileItems now rest st

/-- One full reconciliation pass of `storyRemover` after both fetches
succeeded: sweep every entry of the tracker's store. -/
def storyRemoverPass (topItems : List Int) (fileItems : List item)
    (now : Int) (lq : limitQueue) : limitQueue × List change :=
  removerLoop topItems fileItems now lq.store lq

/-- Did the sweep of `es` evict key `k`? -/
def evictedIn (topItems : List Int) (fileItems : List item) (now : Int)
    (es : List (Int × item)) (k : Int) : Bool :=
  es.any (fun e => e.1 == k && shouldEvict topItems fileItems now e.1 e.2)

/-- C6: In a reconciliation pass (`storyRemover` after both fetches
succeeded), a tracked item's entry is removed iff it is not still
canonical (per the source-specific membership test the code performs)
and its age `now − Added` strictly exceeds the 8-hour window; every
such eviction publishes the `removed` change event carrying the item.
The witness instantiates the 9-hour (evicted) and 1-hour (retained)
instances. -/

theorem lqWF_init (limit : Nat) : lqWF (lqInit limit) :=
  ⟨rfl, List.nodup_nil, Nat.zero_le _⟩

theorem storeLookup_isSome_iff (s : List (Int × item)) (k : Int) :
    (storeLookup s k).isSome ↔ k ∈ s.map Prod.fst := by
  induction s with
  | nil => simp [storeLookup]
  | cons p rest ih =>
      obtain ⟨k2, v⟩ := p
      by_cases h : k2 = k
      · subst h; simp [storeLookup]
      · simp [storeLookup, h, ih, Ne.symm h]

theorem storeLookup_eq_none_iff (s : List (Int × item)) (k : Int) :
    storeLookup s k = none ↔ k ∉ s.map Prod.fst := by
  rw [← storeLookup_isSome_iff, Option.isSome_iff_ne_none]
  tauto

theorem storeSet_of_not_mem (s : List (Int × item)) (k : Int) (v : item)
    (h : k ∉ s.map Prod.fst) : storeSet s k v = s ++ [(k, v)] := by
  induction s with
  | nil => simp [storeSet]
  | cons p rest ih =>
      obtain ⟨k2, w⟩ := p
      simp only [List.map_cons, List.mem_cons] at h
      push_neg at h
      simp [storeSet, Ne.symm h.1, ih h.2]

theorem storeSet_map_fst_of_mem (s : List (Int × item)) (k : Int) (v : item)
    (h : k ∈ s.map Prod.fst) :
    (storeSet s k v).map Prod.fst = s.map Prod.fst := by
  induction s with
  | nil => simp at h
  | cons p rest ih =>
      obtain ⟨k2, w⟩ := p
      by_cases hk : k2 = k
      · simp [storeSet, hk]
      · simp only [List.map_cons, List.mem_cons] at h
        rcases h with h | h
        · exact absurd h.symm hk
        · simp [storeSet, hk, ih h]

theorem storeSet_length_of_mem (s : List (Int × item)) (k : Int) (v : item)
    (h : k ∈ s.map Prod.fst) : (storeSet s k v).length = s.length := by
  have := storeSet_map_fst_of_mem s k v h
  have h1 : ((storeSet s k v).map Prod.fst).length = (s.map Prod.fst).length := by
    rw [this]
  simpa using h1

theorem storeLookup_storeSet_self (s : List (Int × item)) (k : Int) (v : item) :
    storeLookup (storeSet s k v) k = some v := by
  induction s with
  | nil => simp [storeSet, storeLookup]
  | cons p rest ih =>
      obtain ⟨k2, w⟩ := p
      by_cases hk : k2 = k
      · simp [storeSet, hk, storeLookup]
      · simp [storeSet, hk, storeLookup, ih]

theorem storeLookup_storeSet_other (s : List (Int × item)) (k k2 : Int) (v : item)
    (h : k2 ≠ k) : storeLookup (storeSet s k v) k2 = storeLookup s k2 := by
  induction s with
  | nil => simp [storeSet, storeLookup, Ne.symm h]
  | cons p rest ih =>
      obtain ⟨k3, w⟩ := p
      by_cases hk : k3 = k
      · simp [storeSet, hk, storeLookup, Ne.symm h]
      · simp [storeSet, hk, storeLookup, ih]

theorem storeLookup_storeDel (s : List (Int × item)) (k k2 : Int) :
    storeLookup (storeDel s k) k2 =
      if k2 = k then none else storeLookup s k2 := by
  induction s with
  | nil => simp [storeDel, storeLookup]
  | cons p rest ih =>
      obtain ⟨k3, w⟩ := p
      by_cases hk : k3 = k
      · by_cases h2 : k2 = k
        · subst h2
          simp [storeDel, hk, ih]
        · simp [storeDel, hk, storeLookup, ih, h2, Ne.symm h2]
      · by_cases h3 : k3 = k2
        · have h2 : k2 ≠ k := fun hc => hk (h3.trans hc)
          simp [storeDel, hk, storeLookup, h3, h2]
        · simp [storeDel, hk, storeLookup, h3, ih]

theorem storeDel_map_fst (s : List (Int × item)) (k : Int) :
    (storeDel s k).map Prod.fst = (s.map Prod.fst).filter (fun x => x != k) := by
  induction s with
  | nil => simp [storeDel]
  | cons p rest ih =>
      obtain ⟨k3, w⟩ := p
      by_cases hk : k3 = k
      · simp [storeDel, hk, ih, List.filter_cons]
      · simp [storeDel, hk, ih, List.filter_cons, bne_iff_ne]

theorem filter_ne_head {k0 : Int} {rest : List Int} (h : (k0 :: rest).Nodup) :
    (k0 :: rest).filter (fun x => x != k0) = rest := by
  have hk0 : k0 ∉ rest := (List.nodup_cons.mp h).1
  rw [List.filter_cons, if_neg (by simp)]
  exact List.filter_eq_self.mpr fun x hx => by
    simp only [bne_iff_ne, ne_eq, decide_eq_true_eq]
    exact fun hc => hk0 (hc ▸ hx)

theorem lqAdd_limit (lq : limitQueue) (it : item) :
    (lqAdd lq it).1.limit = lq.limit := by
  cases hlook : storeLookup lq.store it.ID with
  | some v => simp [lqAdd, hlook]
  | none =>
      simp only [lqAdd, hlook]
      by_cases hfull : lq.limit < (storeSet lq.store it.ID it).length
      · simp only [if_pos hfull]
        cases h : lq.keys ++ [it.ID] <;> simp
      · simp [if_neg hfull]

/-- Every `add` preserves the tracker invariant. -/
theorem lqAdd_wf (lq : limitQueue) (it : item) (h : lqWF lq) :
    lqWF (lqAdd lq it).1 := by
  obtain ⟨hmap, hnodup, hlen⟩ := h
  cases hlook : storeLookup lq.store it.ID with
  | some v =>
      have hmem : it.ID ∈ lq.store.map Prod.fst := by
        rw [← storeLookup_isSome_iff, hlook]; rfl
      simp only [lqAdd, hlook]
      refine ⟨?_, hnodup, hlen⟩
      rw [storeSet_map_fst_of_mem _ _ _ hmem]
      exact hmap
  | none =>
      have hnot : it.ID ∉ lq.store.map Prod.fst :=
        (storeLookup_eq_none_iff _ _).mp hlook
      have hset : storeSet lq.store it.ID it = lq.store ++ [(it.ID, it)] :=
        storeSet_of_not_mem _ _ _ hnot
      have hmap1 : (storeSet lq.store it.ID it).map Prod.fst =
          lq.keys ++ [it.ID] := by
        rw [hset]; simp [hmap]
      have hnodup1 : (lq.keys ++ [it.ID]).Nodup := by
        rw [List.nodup_append]
        refine ⟨hnodup, List.nodup_singleton _, ?_⟩
        intro a ha hb
        simp only [List.mem_singleton] at hb
        subst hb
        exact hnot (by rw [hmap]; exact ha)
      have hlength1 : (storeSet lq.store it.ID it).length =
          lq.keys.length + 1 := by
        rw [hset]
        simp [← hmap]
      by_cases hfull : lq.limit < (storeSet lq.store it.ID it).length
      · cases hkeys : lq.keys with
        | nil =>
            simp only [lqAdd, hlook, if_pos hfull, hkeys, List.nil_append]
            refine ⟨?_, List.nodup_nil, Nat.zero_le _⟩
            rw [storeDel_map_fst, hmap1, hkeys]
            simp
        | cons a as =>
            simp only [lqAdd, hlook, if_pos hfull, hkeys, List.cons_append]
            have hmap1' : (storeSet lq.store it.ID it).map Prod.fst =
                a :: (as ++ [it.ID]) := by
              rw [hmap1, hkeys]; rfl
            have hnodup1' : (a :: (as ++ [it.ID])).Nodup := by
              have := hnodup1
              rw [hkeys] at this
              simpa using this
            refine ⟨?_, (List.nodup_cons.mp hnodup1').2, ?_⟩
            · rw [storeDel_map_fst, hmap1']
              exact filter_ne_head hnodup1'
            · have : (as ++ [it.ID]).length = lq.keys.length := by
                rw [hkeys]; simp
              rw [this]
              exact hlen
      · simp only [lqAdd, hlook, if_neg hfull]
        refine ⟨hmap1, hnodup1, ?_⟩
        have : (storeSet lq.store it.ID it).length ≤ lq.limit :=
          Nat.le_of_not_lt hfull

        calc (lq.keys ++ [it.ID]).length
            = lq.keys.length + 1 := by simp
          _ = (storeSet lq.store it.ID it).length := hlength1.symm
          _ ≤ lq.limit := this

theorem lqWF_applyAdds (lq : limitQueue) (its : List item) (h : lqWF lq) :
    lqWF (applyAdds lq its) := by
  induction its generalizing lq with
  | nil => exact h
  | cons it rest ih => exact ih _ (lqAdd_wf lq it h)

theorem applyAdds_limit (lq : limitQueue) (its : List item) :
    (applyAdds lq its).limit = lq.limit := by
  induction its generalizing lq with
  | nil => rfl
  | cons it rest ih =>
      have hstep : applyAdds lq (it :: rest) = applyAdds (lqAdd lq it).1 rest := rfl
      rw [hstep, ih, lqAdd_limit]

/-- C1: For every sequence of `add` calls on the Tracker (capacity
`humanTrackingLimit = 300`), after each call (i.e. after folding any
list of adds, hence any prefix of a longer sequence) the store holds at
most 300 entries, `keys` and `store` have equal size, and an ID is in
`keys` exactly when it has a store entry. -/
theorem tracker_capacity_invariant (its : List item) :
    (applyAdds (lqInit humanTrackingLimit) its).store.length ≤
        humanTrackingLimit ∧
    (applyAdds (lqInit humanTrackingLimit) its).keys.length =
        (applyAdds (lqInit humanTrackingLimit) its).store.length ∧
    ∀ k : Int,
      k ∈ (applyAdds (lqInit humanTrackingLimit) its).keys ↔
        (storeLookup (applyAdds (lqInit humanTrackingLimit) its).store k).isSome := by
  obtain ⟨hmap, _, hlen⟩ :=
    lqWF_applyAdds (lqInit humanTrackingLimit) its (lqWF_init _)
  rw [applyAdds_limit] at hlen
  have hlenEq :
      (applyAdds (lqInit humanTrackingLimit) its).keys.length =
        (applyAdds (lqInit humanTrackingLimit) its).store.length := by
    conv_lhs => rw [← hmap]
    simp
  refine ⟨hlenEq ▸ hlen, hlenEq, fun k => ?_⟩
  rw [storeLookup_isSome_iff, hmap]

/-- C2: When `add` is called with a fresh ID on a tracker that is at
capacity (so the new key makes the size exceed `C`), the oldest key
(index 0 of `keys`) and its item are removed and returned: the call
returns the store entry of `keys.headI`, the new key order is the old
tail followed by the new ID, the oldest key's entry is gone from the
store, and the new item is present.  Instantiated at capacity `C = 2`
with adds of IDs 1, 2, 3 in the witness, the third call returns the
item with ID 1 and leaves exactly IDs 2 and 3. -/
theorem tracker_fifo_eviction (lq : limitQueue) (it : item)
    (hwf : lqWF lq)
    (hnew : storeLookup lq.store it.ID = none)
    (hfull : lq.keys.length = lq.limit)
    (hpos : 0 < lq.limit) :
    (lqAdd lq it).2 = storeLookup lq.store lq.keys.headI ∧
    (lqAdd lq it).1.keys = lq.keys.tail ++ [it.ID] ∧
    storeLookup (lqAdd lq it).1.store lq.keys.headI = none ∧
    storeLookup (lqAdd lq it).1.store it.ID = some it := by
  obtain ⟨hmap, hnodup, hlen⟩ := hwf
  have hnot : it.ID ∉ lq.store.map Prod.fst :=
    (storeLookup_eq_none_iff _ _).mp hnew
  have hnotk : it.ID ∉ lq.keys := by rw [← hmap]; exact hnot
  have hset : storeSet lq.store it.ID it = lq.store ++ [(it.ID, it)] :=
    storeSet_of_not_mem _ _ _ hnot
  have hlength1 : (storeSet lq.store it.ID it).length = lq.keys.length + 1 := by
    rw [hset]
    have : lq.store.length = lq.keys.length := by rw [← hmap]; simp
    simp [this]
  have hfull' : lq.limit < (storeSet lq.store it.ID it).length := by
    rw [hlength1, hfull]
    exact Nat.lt_succ_self _
  cases hkeys : lq.keys with
  | nil =>
      exfalso
      rw [hkeys] at hfull
      simp at hfull
      rw [← hfull] at hpos
      exact Nat.lt_irrefl _ hpos
  | cons a as =>
      have ha : a ∈ lq.keys := by rw [hkeys]; exact List.mem_cons_self _ _
      have hane : a ≠ it.ID := fun hc => hnotk (hc ▸ ha)
      simp only [lqAdd, hnew, if_pos hfull', hkeys, List.cons_append]
      refine ⟨?_, rfl, ?_, ?_⟩
      · rw [storeLookup_storeSet_other _ _ _ _ hane]
        rfl
      · rw [storeLookup_storeDel]
        simp [List.headI]
      · rw [storeLookup_storeDel, if_neg (Ne.symm hane),
          storeLookup_storeSet_self]

/-- C2 witness: capacity 2, adds of IDs 1, 2, 3; the hypotheses of
`tracker_fifo_eviction` hold at the state after the first two adds, the
third add returns the item with ID 1 as evicted, and the final keys are
exactly `[2, 3]`. -/
theorem tracker_fifo_eviction_witness :
    (lqWF (applyAdds (lqInit 2)
        [⟨1, "", 0, "", "", ""⟩, ⟨2, "", 0, "", "", ""⟩]) ∧
      storeLookup (applyAdds (lqInit 2)
        [⟨1, "", 0, "", "", ""⟩, ⟨2, "", 0, "", "", ""⟩]).store
          (⟨3, "", 0, "", "", ""⟩ : item).ID = none ∧
      (applyAdds (lqInit 2)
        [⟨1, "", 0, "", "", ""⟩, ⟨2, "", 0, "", "", ""⟩]).keys.length =
        (applyAdds (lqInit 2)
        [⟨1, "", 0, "", "", ""⟩, ⟨2, "", 0, "", "", ""⟩]).limit) ∧
    ((lqAdd (applyAdds (lqInit 2)
        [⟨1, "", 0, "", "", ""⟩, ⟨2, "", 0, "", "", ""⟩])
        ⟨3, "", 0, "", "", ""⟩).2 =
      storeLookup (applyAdds (lqInit 2)
        [⟨1, "", 0, "", "", ""⟩, ⟨2, "", 0, "", "", ""⟩]).store
        (applyAdds (lqInit 2)
        [⟨1, "", 0, "", "", ""⟩, ⟨2, "", 0, "", "", ""⟩]).keys.headI) ∧
    (lqAdd (applyAdds (lqInit 2)
        [⟨1, "", 0, "", "", ""⟩, ⟨2, "", 0, "", "", ""⟩])
        ⟨3, "", 0, "", "", ""⟩).2 = some ⟨1, "", 0, "", "", ""⟩ ∧
    (lqAdd (applyAdds (lqInit 2)
        [⟨1, "", 0, "", "", ""⟩, ⟨2, "", 0, "", "", ""⟩])
        ⟨3, "", 0, "", "", ""⟩).1.keys = [2, 3] :=
  ⟨⟨by decide, by decide, by decide⟩,
    (tracker_fifo_eviction _ _ (by decide) (by decide) (by decide)
      (by decide)).1,
    by decide, by decide⟩

/-- C3: `add` of an item whose ID is already present overwrites the
stored item in place, leaves the key order unchanged, returns nothing
removed, leaves every other store entry and the store size unchanged —
so that call alone triggers no eviction. -/
theorem tracker_overwrite_in_place (lq : limitQueue) (it : item)
    (h : (storeLookup lq.store it.ID).isSome) :
    (lqAdd lq it).1.keys = lq.keys ∧
    (lqAdd lq it).2 = none ∧
    storeLookup (lqAdd lq it).1.store it.ID = some it ∧
    (∀ k : Int, k ≠ it.ID →
      storeLookup (lqAdd lq it).1.store k = storeLookup lq.store k) ∧
    (lqAdd lq it).1.store.length = lq.store.length := by
  cases hlook : storeLookup lq.store it.ID with
  | none => rw [hlook] at h; simp at h
  | some v =>
      have h1 : (lqAdd lq it).1 = { lq with store := storeSet lq.store it.ID it } := by
        simp only [lqAdd, hlook]
      have h2 : (lqAdd lq it).2 = none := by
        simp only [lqAdd, hlook]
      rw [h1, h2]
      refine ⟨rfl, rfl, storeLookup_storeSet_self _ _ _,
        fun k hk => storeLookup_storeSet_other _ _ _ _ hk, ?_⟩
      exact storeSet_length_of_mem _ _ _
        (by rw [← storeLookup_isSome_iff, hlook]; rfl)

/-- C3 witness: after adding an item with ID 1 and URL "old", re-adding
ID 1 with URL "new" overwrites in place: keys unchanged, nothing
removed, the stored item now carries the new fields. -/
theorem tracker_overwrite_in_place_witness :
    (storeLookup (applyAdds (lqInit 2) [⟨1, "old", 0, "", "", ""⟩]).store
      (⟨1, "new", 0, "", "", ""⟩ : item).ID).isSome ∧
    ((lqAdd (applyAdds (lqInit 2) [⟨1, "old", 0, "", "", ""⟩])
        ⟨1, "new", 0, "", "", ""⟩).1.keys =
      (applyAdds (lqInit 2) [⟨1, "old", 0, "", "", ""⟩]).keys ∧
      (lqAdd (applyAdds (lqInit 2) [⟨1, "old", 0, "", "", ""⟩])
        ⟨1, "new", 0, "", "", ""⟩).2 = none) ∧
    storeLookup (lqAdd (applyAdds (lqInit 2) [⟨1, "old", 0, "", "", ""⟩])
        ⟨1, "new", 0, "", "", ""⟩).1.store 1 =
      some ⟨1, "new", 0, "", "", ""⟩ :=
  ⟨by decide,
    ⟨(tracker_overwrite_in_place _ _ (by decide)).1,
      (tracker_overwrite_in_place _ _ (by decide)).2.1⟩,
    by decide⟩

/-- C4 counterexample: the claim says `urlToDomain "example.com/x"`
yields `example.com`, but a scheme-less URL parses with an empty
hostname, so the code yields the empty string. -/
theorem urlToDomain_schemeless_counterexample :
    urlToDomain "example.com/x" = Except.ok "" ∧
    (Except.ok "" : Except String String) ≠ Except.ok "example.com" :=
  ⟨by decide, by decide⟩

/-- C4 amended: `urlToDomain` yields `example.com` for
`https://www.example.com/x`, yields the empty string for
`example.com/x` (whose parsed hostname is empty), and deriving the
domain twice from the same URL yields the same value. -/
theorem urlToDomain_derivation :
    urlToDomain "https://www.example.com/x" = Except.ok "example.com" ∧
    urlToDomain "example.com/x" = Except.ok "" ∧
    ∀ link : String, urlToDomain link = urlToDomain link :=
  ⟨by decide, by decide, fun _ => rfl⟩

/-- C9: `fetchTopStories` returns exactly the first
`min limit (length of the decoded list)` IDs, in list order. -/
theorem fetchTopStories_truncation (limit : Nat) (items : List Int) :
    fetchTopStoriesTrunc limit items = items.take (min limit items.length) ∧
    (fetchTopStoriesTrunc limit items).length = min limit items.length := by
  have h1 : fetchTopStoriesTrunc limit items =
      items.take (min limit items.length) := by
    unfold fetchTopStoriesTrunc
    by_cases h : items.length < limit
    · rw [if_pos h, Nat.min_eq_right (Nat.le_of_lt h)]
    · rw [if_neg h, Nat.min_eq_left (Nat.le_of_not_lt h)]
  refine ⟨h1, ?_⟩
  rw [h1, List.length_take]
  omega

theorem setAdded_From (now : Int) (it : item) :
    (setAdded now it).From = it.From := by
  unfold setAdded; split <;> rfl

theorem setAdded_URL (now : Int) (it : item) :
    (setAdded now it).URL = it.URL := by
  unfold setAdded; split <;> rfl

theorem setAdded_Domain (now : Int) (it : item) :
    (setAdded now it).Domain = it.Domain := by
  unfold setAdded; split <;> rfl

theorem setAdded_ID (now : Int) (it : item) :
    (setAdded now it).ID = it.ID := by
  unfold setAdded; split <;> rfl

theorem setDomain_From (it : item) : (setDomain it).From = it.From := by
  unfold setDomain
  by_cases h : it.Domain = ""
  · rw [if_pos h]
    cases urlToDomain it.URL <;> rfl
  · rw [if_neg h]

theorem setDomain_ID (it : item) : (setDomain it).ID = it.ID := by
  unfold setDomain
  by_cases h : it.Domain = ""
  · rw [if_pos h]
    cases urlToDomain it.URL <;> rfl
  · rw [if_neg h]

theorem setDiscussLink_From (it : item) :
    (setDiscussLink it).From = it.From := by
  unfold setDiscussLink; split <;> rfl

theorem setDiscussLink_Domain (it : item) :
    (setDiscussLink it).Domain = it.Domain := by
  unfold setDiscussLink; split <;> rfl

theorem setDiscussLink_ID (it : item) :
    (setDiscussLink it).ID = it.ID := by
  unfold setDiscussLink; split <;> rfl

theorem normalizeItem_From (now : Int) (it : item) :
    (normalizeItem now it).From = it.From := by
  rw [normalizeItem, setDiscussLink_From, setDomain_From, setAdded_From]

theorem normalizeItem_ID (now : Int) (it : item) :
    (normalizeItem now it).ID = it.ID := by
  rw [normalizeItem, setDiscussLink_ID, setDomain_ID, setAdded_ID]

theorem processItem_fst (now : Int) (st : limitQueue) (it0 : item) :
    (processItem now st it0).1 = (lqAdd st (normalizeItem now it0)).1 := by
  rcases hlq : lqAdd st (normalizeItem now it0) with ⟨st2, rem⟩
  simp only [processItem, hlq]
  cases rem <;> rfl

theorem processItem_item (now : Int) (st : limitQueue) (it0 : item) :
    (processItem now st it0).2.1 = normalizeItem now it0 := by
  rcases hlq : lqAdd st (normalizeItem now it0) with ⟨st2, rem⟩
  simp only [processItem, hlq]
  cases rem <;> rfl

theorem processItem_added_mem (now : Int) (st : limitQueue) (it0 : item) :
    (⟨changeAction.added, normalizeItem now it0⟩ : change) ∈
      (processItem now st it0).2.2 := by
  rcases hlq : lqAdd st (normalizeItem now it0) with ⟨st2, rem⟩
  simp only [processItem, hlq]
  cases rem <;> simp

/-- Calling `add` on a well-formed tracker with positive capacity always leaves
the just-added item retrievable by its ID. -/
theorem lqAdd_lookup_self (lq : limitQueue) (it : item)
    (hwf : lqWF lq) (hpos : 0 < lq.limit) :
    storeLookup (lqAdd lq it).1.store it.ID = some it := by
  obtain ⟨hmap, hnodup, hlen⟩ := hwf
  cases hlook : storeLookup lq.store it.ID with
  | some v =>
      simp only [lqAdd, hlook]
      exact storeLookup_storeSet_self _ _ _
  | none =>
      have hnot : it.ID ∉ lq.store.map Prod.fst :=
        (storeLookup_eq_none_iff _ _).mp hlook
      have hnotk : it.ID ∉ lq.keys := by rw [← hmap]; exact hnot
      by_cases hfull : lq.limit < (storeSet lq.store it.ID it).length
      · cases hkeys : lq.keys with
        | nil =>
            exfalso
            have hstore : lq.store = [] := by
              have hm := hmap
              rw [hkeys] at hm
              simpa using hm
            rw [hstore] at hfull
            simp [storeSet] at hfull
            omega
        | cons a as =>
            have ha : a ∈ lq.keys := by
              rw [hkeys]; exact List.mem_cons_self _ _
            have hane : it.ID ≠ a := fun hc => hnotk (hc ▸ ha)
            simp only [lqAdd, hlook, if_pos hfull, hkeys, List.cons_append]
            rw [storeLookup_storeDel, if_neg hane, storeLookup_storeSet_self]
      · simp only [lqAdd, hlook, if_neg hfull]
        exact storeLookup_storeSet_self _ _ _

/-- C5: when an ingestion `add` evicts an item, the change stream of
that `storyLister` pass is exactly the `removed` event followed by the
`added` event: the `removed` event sits at index 0, strictly before the
`added` event at index 1. -/
theorem removal_event_before_added_event (now : Int) (st : limitQueue)
    (it0 r : item)
    (h : (lqAdd st (normalizeItem now it0)).2 = some r) :
    (processItem now st it0).2.2 =
      [⟨changeAction.removed, r⟩,
        ⟨changeAction.added, normalizeItem now it0⟩] ∧
    (processItem now st it0).2.2.get? 0 =
      some ⟨changeAction.removed, r⟩ ∧
    (processItem now st it0).2.2.get? 1 =
      some ⟨changeAction.added, normalizeItem now it0⟩ := by
  rcases hlq : lqAdd st (normalizeItem now it0) with ⟨st2, rem⟩
  rw [hlq] at h
  have h2 : rem = some r := h
  subst h2
  have hred : processItem now st it0 =
      (st2, normalizeItem now it0,
        [⟨changeAction.removed, r⟩,
          ⟨changeAction.added, normalizeItem now it0⟩]) := by
    simp only [processItem, hlq]
  rw [hred]
  exact ⟨rfl, rfl, rfl⟩

/-- C5 witness: a capacity-1 tracker holding the item with ID 7; adding
an item with ID 8 evicts it, and the event list of that pass is
`[removed 7, added 8]` in that order. -/
theorem removal_event_before_added_event_witness :
    ((lqAdd (applyAdds (lqInit 1) [⟨7, "", 1, "d", "hn", "x"⟩])
        (normalizeItem 2 ⟨8, "", 2, "d", "hn", ""⟩)).2 =
      some ⟨7, "", 1, "d", "hn", "x"⟩) ∧
    (processItem 2 (applyAdds (lqInit 1) [⟨7, "", 1, "d", "hn", "x"⟩])
        ⟨8, "", 2, "d", "hn", ""⟩).2.2 =
      [⟨changeAction.removed, ⟨7, "", 1, "d", "hn", "x"⟩⟩,
        ⟨changeAction.added, normalizeItem 2 ⟨8, "", 2, "d", "hn", ""⟩⟩] :=
  ⟨by decide,
    (removal_event_before_added_event _ _ _ _ (by decide)).1⟩

/-- C8 counterexample: an item ingested with unset `From` (as decoded
remote records are — nothing in src/ ever assigns the `hn` tag) is
tracked with `From` still empty, which is neither `file` nor `hn`. -/
theorem from_tag_counterexample :
    ((processItem 100 (lqInit 300) ⟨42, "", 0, "", "", ""⟩).2.1).From = "" ∧
    ("" : String) ≠ itemFromHN ∧ ("" : String) ≠ itemFromFile :=
  ⟨by decide, by decide, by decide⟩

/-- C8 amended: the file fetcher tags an empty `From` as `file` before
sending (and otherwise leaves it), while the ingestion consumer never
changes `From`; in particular a remote-fetched item with unset `From`
stays untagged (the `hn` constant is declared but never assigned), and
any `From ≠ file` is treated as remote. -/
theorem from_tag_amended (now : Int) (st : limitQueue) (it : item) :
    (tagFileItem it).From =
      (if it.From = "" then itemFromFile else it.From) ∧
    ((processItem now st it).2.1).From = it.From := by
  constructor
  · by_cases h : it.From = ""
    · simp [tagFileItem, h]
    · simp [tagFileItem, h]
  · rw [processItem_item, normalizeItem_From]

/-- C10: when domain derivation fails for an incoming item (here:
because the URL contains a control character, the error case of
`urlToDomain`), the ingestion consumer still adds the item to the
tracker with `Domain` unchanged and still publishes the `added` change
event; nothing aborts the pass. -/
theorem ingest_domain_error_still_added (now : Int) (st : limitQueue)
    (it0 : item) (e : String)
    (hwf : lqWF st) (hpos : 0 < st.limit)
    (hdom : it0.Domain = "")
    (herr : urlToDomain it0.URL = Except.error e) :
    ((processItem now st it0).2.1).Domain = it0.Domain ∧
    storeLookup (processItem now st it0).1.store it0.ID =
      some (processItem now st it0).2.1 ∧
    (⟨changeAction.added, (processItem now st it0).2.1⟩ : change) ∈
      (processItem now st it0).2.2 := by
  have hDom : (normalizeItem now it0).Domain = it0.Domain := by
    rw [normalizeItem, setDiscussLink_Domain]
    unfold setDomain
    rw [setAdded_Domain, setAdded_URL, if_pos hdom, herr, setAdded_Domain]
  refine ⟨?_, ?_, ?_⟩
  · rw [processItem_item]; exact hDom
  · rw [processItem_item, processItem_fst]
    have := lqAdd_lookup_self st (normalizeItem now it0) hwf hpos
    rwa [normalizeItem_ID] at this
  · rw [processItem_item]
    exact processItem_added_mem now st it0

/-- C10 witness: on the initial capacity-300 tracker, an item whose URL
contains a newline (so `urlToDomain` errors) is still added, keeps its
empty `Domain`, and its `added` event is published. -/
theorem ingest_domain_error_still_added_witness :
    (lqWF (lqInit 300) ∧ 0 < (lqInit 300).limit ∧
      (⟨9, "http://e\nx.com", 0, "", "hn", ""⟩ : item).Domain = "" ∧
      urlToDomain (⟨9, "http://e\nx.com", 0, "", "hn", ""⟩ : item).URL =
        Except.error "net/url: invalid control character in URL") ∧
    (((processItem 50 (lqInit 300)
        ⟨9, "http://e\nx.com", 0, "", "hn", ""⟩).2.1).Domain =
      (⟨9, "http://e\nx.com", 0, "", "hn", ""⟩ : item).Domain ∧
    storeLookup (processItem 50 (lqInit 300)
        ⟨9, "http://e\nx.com", 0, "", "hn", ""⟩).1.store 9 =
      some (processItem 50 (lqInit 300)
        ⟨9, "http://e\nx.com", 0, "", "hn", ""⟩).2.1) :=
  ⟨⟨by decide, by decide, by decide, by decide⟩,
    (ingest_domain_error_still_added 50 (lqInit 300)
      ⟨9, "http://e\nx.com", 0, "", "hn", ""⟩
      "net/url: invalid control character in URL"
      (by decide) (by decide) (by decide) (by decide)).1,
    (ingest_domain_error_still_added 50 (lqInit 300)
      ⟨9, "http://e\nx.com", 0, "", "hn", ""⟩
      "net/url: invalid control character in URL"
      (by decide) (by decide) (by decide) (by decide)).2.1⟩

theorem lqRemove_lookup (st : limitQueue) (id k : Int) :
    storeLookup (lqRemove st id).store k =
      if k = id then none else storeLookup st.store k :=
  storeLookup_storeDel _ _ _

theorem shouldEvict_eq_true_iff (topItems : List Int) (fileItems : List item)
    (now : Int) (id : Int) (it : item) :
    shouldEvict topItems fileItems now id it = true ↔
      (stillAtTop topItems fileItems id it = false ∧
        eightHrs < now - it.Added) := by
  unfold shouldEvict
  simp [Bool.and_eq_true, Bool.not_eq_true']

theorem evictedIn_cons (topItems : List Int) (fileItems : List item)
    (now : Int) (id : Int) (it : item) (rest : List (Int × item)) (k : Int) :
    evictedIn topItems fileItems now ((id, it) :: rest) k =
      ((id == k && shouldEvict topItems fileItems now id it) ||
        evictedIn topItems fileItems now rest k) := by
  simp [evictedIn, List.any_cons]

theorem removerLoop_lookup (topItems : List Int) (fileItems : List item)
    (now : Int) (es : List (Int × item)) (st : limitQueue) (k : Int) :
    storeLookup (removerLoop topItems fileItems now es st).1.store k =
      if evictedIn topItems fileItems now es k then none
      else storeLookup st.store k := by
  induction es generalizing st with
  | nil => simp [removerLoop, evictedIn]
  | cons e rest ih =>
      obtain ⟨id, it⟩ := e
      rw [evictedIn_cons]
      cases hc : shouldEvict topItems fileItems now id it
      case false =>
          have hcn : ¬(shouldEvict topItems fileItems now id it = true) := by
            simp [hc]
          simp only [removerLoop, if_neg hcn, Bool.and_false, Bool.false_or]
          exact ih st
      case true =>
          simp only [removerLoop, if_pos hc, Bool.and_true]
          rw [ih, lqRemove_lookup]
          cases hr : evictedIn topItems fileItems now rest k
          case true => simp
          case false =>
              by_cases hk : k = id
              · subst hk
                simp
              · have hkb : (id == k) = false := by
                  simp only [beq_eq_false_iff_ne, ne_eq]
                  exact fun h => hk h.symm
                simp [hkb, hk]

theorem storeLookup_of_mem_nodup (s : List (Int × item)) (k : Int) (v : item)
    (hnd : (s.map Prod.fst).Nodup) (hmem : (k, v) ∈ s) :
    storeLookup s k = some v := by
  induction s with
  | nil => simp at hmem
  | cons p rest ih =>
      obtain ⟨k2, w⟩ := p
      have hk2 : k2 ∉ rest.map Prod.fst := (List.nodup_cons.mp (by simpa using hnd)).1
      have hnd' : (rest.map Prod.fst).Nodup := (List.nodup_cons.mp (by simpa using hnd)).2
      rcases List.mem_cons.mp hmem with heq | hmem'
      · injection heq with h1 h2
        subst h1
        subst h2
        simp [storeLookup]
      · have hkmem : k ∈ rest.map Prod.fst :=
          List.mem_map.mpr ⟨(k, v), hmem', rfl⟩
        have hne : k2 ≠ k := fun hc => hk2 (hc ▸ hkmem)
        simp [storeLookup, hne, ih hnd' hmem']

theorem removerLoop_events (topItems : List Int) (fileItems : List item)
    (now : Int) (es : List (Int × item)) (st : limitQueue)
    (hent : ∀ e ∈ es, storeLookup st.store e.1 = some e.2)
    (hnd : (es.map Prod.fst).Nodup) :
    (removerLoop topItems fileItems now es st).2 =
      (es.filter (fun e => shouldEvict topItems fileItems now e.1 e.2)).map
        (fun e => (⟨changeAction.removed, e.2⟩ : change)) := by
  induction es generalizing st with
  | nil => simp [removerLoop]
  | cons e rest ih =>
      obtain ⟨id, it⟩ := e
      have hhead : storeLookup st.store id = some it :=
        hent _ (List.mem_cons_self _ _)
      have hnd1 : (id :: rest.map Prod.fst).Nodup := by simpa using hnd
      have hnd0 := List.nodup_cons.mp hnd1
      cases hc : shouldEvict topItems fileItems now id it
      case false =>
          have hcn : ¬(shouldEvict topItems fileItems now id it = true) := by
            simp [hc]
          simp only [removerLoop, if_neg hcn]
          rw [ih st (fun e he => hent e (List.mem_cons_of_mem _ he)) hnd0.2]
          rw [List.filter_cons]
          simp [hc]
      case true =>
          simp only [removerLoop, if_pos hc, hhead]
          rw [ih (lqRemove st id) ?_ hnd0.2]
          · rw [List.filter_cons]
            simp [hc]
          · intro e he
            rw [lqRemove_lookup]
            have hek : e.1 ∈ rest.map Prod.fst := List.mem_map.mpr ⟨e, he, rfl⟩
            have hne : e.1 ≠ id := fun hc2 => hnd0.1 (hc2 ▸ hek)
            rw [if_neg hne]
            exact hent e (List.mem_cons_of_mem _ he)

theorem evictedIn_eq (topItems : List Int) (fileItems : List item)
    (now : Int) (s : List (Int × item)) (id : Int) (it : item)
    (hnd : (s.map Prod.fst).Nodup) (hmem : (id, it) ∈ s) :
    evictedIn topItems fileItems now s id =
      shouldEvict topItems fileItems now id it := by
  have hl := storeLookup_of_mem_nodup s id it hnd hmem
  cases hse : shouldEvict topItems fileItems now id it
  case false =>
      rw [evictedIn, List.any_eq_false]
      intro e he
      obtain ⟨a, b⟩ := e
      by_cases hid : a = id
      · subst hid
        have hb := storeLookup_of_mem_nodup s a b hnd he
        rw [hl] at hb
        injection hb with hb2
        subst hb2
        simp [hse]
      · simp [hid]
  case true =>
      rw [evictedIn, List.any_eq_true]
      exact ⟨(id, it), hmem, by simp [hse]⟩

theorem reconciler_staleness (topItems : List Int) (fileItems : List item)
    (now : Int) (lq : limitQueue) (id : Int) (it : item)
    (hnd : (lq.store.map Prod.fst).Nodup)
    (hmem : (id, it) ∈ lq.store) :
    (storeLookup (storyRemoverPass topItems fileItems now lq).1.store id =
        none ↔
      (stillAtTop topItems fileItems id it = false ∧
        eightHrs < now - it.Added)) ∧
    (stillAtTop topItems fileItems id it = false →
      eightHrs < now - it.Added →
      (⟨changeAction.removed, it⟩ : change) ∈
        (storyRemoverPass topItems fileItems now lq).2) := by
  have hl := storeLookup_of_mem_nodup lq.store id it hnd hmem
  have hent : ∀ e ∈ lq.store, storeLookup lq.store e.1 = some e.2 := by
    intro e he
    obtain ⟨a, b⟩ := e
    exact storeLookup_of_mem_nodup lq.store a b hnd he
  constructor
  · rw [storyRemoverPass, removerLoop_lookup,
      evictedIn_eq _ _ _ _ _ _ hnd hmem, ← shouldEvict_eq_true_iff]
    cases hse : shouldEvict topItems fileItems now id it
    case false => simp [hse, hl]
    case true => simp [hse]
  · intro h1 h2
    have hse : shouldEvict topItems fileItems now id it = true :=
      (shouldEvict_eq_true_iff _ _ _ _ _).mpr ⟨h1, h2⟩
    rw [storyRemoverPass, removerLoop_events topItems fileItems now
      lq.store lq hent hnd]
    exact List.mem_map.mpr ⟨(id, it), List.mem_filter.mpr ⟨hmem, hse⟩, rfl⟩

/-- C6 witness: a non-file item with ID 5 and `Added = 0`, absent from
both canonical lists; at `now = 32400` (9 hours) it is evicted and its
`removed` event published, at `now = 3600` (1 hour) it is retained. -/
theorem reconciler_staleness_witness :
    (((⟨300, [5], [(5, ⟨5, "", 0, "", "hn", ""⟩)]⟩ :
          limitQueue).store.map Prod.fst).Nodup ∧
      ((5 : Int), (⟨5, "", 0, "", "hn", ""⟩ : item)) ∈
        (⟨300, [5], [(5, ⟨5, "", 0, "", "hn", ""⟩)]⟩ : limitQueue).store) ∧
    storeLookup (storyRemoverPass [] [] 32400
      ⟨300, [5], [(5, ⟨5, "", 0, "", "hn", ""⟩)]⟩).1.store 5 = none ∧
    (⟨changeAction.removed, ⟨5, "", 0, "", "hn", ""⟩⟩ : change) ∈
      (storyRemoverPass [] [] 32400
        ⟨300, [5], [(5, ⟨5, "", 0, "", "hn", ""⟩)]⟩).2 ∧
    storeLookup (storyRemoverPass [] [] 3600
        ⟨300, [5], [(5, ⟨5, "", 0, "", "hn", ""⟩)]⟩).1.store 5 =
      some ⟨5, "", 0, "", "hn", ""⟩ :=
  ⟨⟨by decide, by decide⟩,
    (reconciler_staleness [] [] 32400
      ⟨300, [5], [(5, ⟨5, "", 0, "", "hn", ""⟩)]⟩ 5
      ⟨5, "", 0, "", "hn", ""⟩ (by decide) (by decide)).1.mpr
      ⟨by decide, by decide⟩,
    (reconciler_staleness [] [] 32400
      ⟨300, [5], [(5, ⟨5, "", 0, "", "hn", ""⟩)]⟩ 5
      ⟨5, "", 0, "", "hn", ""⟩ (by decide) (by decide)).2
      (by decide) (by decide),
    by decide⟩

/-- C7 counterexample: a file-sourced tracked item whose ID 1 is in the
canonical union (it is in the remote ranked list `[1]`) is nevertheless
evicted when stale, because the code matches file-sourced items only
against the file list. -/
theorem reconciler_union_counterexample :
    ((1 : Int) ∈ ([1] : List Int) ∨
      (1 : Int) ∈ ([] : List item).map item.ID) ∧
    storeLookup (storyRemoverPass [1] [] 40000
      ⟨300, [1], [(1, ⟨1, "", 0, "", "file", ""⟩)]⟩).1.store 1 = none :=
  ⟨Or.inl (by decide), by decide⟩

/-- C7 amended: canonical membership is tested per provenance — a
file-sourced item is matched against the file-ID list, every other item
against the remote ranked list; an item that passes its own source's
membership test (`stillAtTop`) is never evicted by the reconciler,
regardless of its age. -/
theorem reconciler_canonical_retention (topItems : List Int)
    (fileItems : List item) (now : Int) (lq : limitQueue)
    (id : Int) (it : item)
    (hnd : (lq.store.map Prod.fst).Nodup)
    (hmem : (id, it) ∈ lq.store)
    (hcanon : stillAtTop topItems fileItems id it = true) :
    storeLookup (storyRemoverPass topItems fileItems now lq).1.store id =
      some it := by
  have hl := storeLookup_of_mem_nodup lq.store id it hnd hmem
  rw [storyRemoverPass, removerLoop_lookup,
    evictedIn_eq _ _ _ _ _ _ hnd hmem]
  have hse : shouldEvict topItems fileItems now id it = false := by
    unfold shouldEvict
    rw [hcanon]
    rfl
  rw [hse]
  simp [hl]

/-- C7 (amended) witness: a remote item with ID 2 present in the remote
ranked list is retained even at age far beyond the window
(`now = 1000000`, `Added = 0`). -/
theorem reconciler_canonical_retention_witness :
    (((⟨300, [2], [(2, ⟨2, "", 0, "", "hn", ""⟩)]⟩ :
          limitQueue).store.map Prod.fst).Nodup ∧
      ((2 : Int), (⟨2, "", 0, "", "hn", ""⟩ : item)) ∈
        (⟨300, [2], [(2, ⟨2, "", 0, "", "hn", ""⟩)]⟩ : limitQueue).store ∧
      stillAtTop [2] [] 2 ⟨2, "", 0, "", "hn", ""⟩ = true) ∧
    storeLookup (storyRemoverPass [2] [] 1000000
      ⟨300, [2], [(2, ⟨2, "", 0, "", "hn", ""⟩)]⟩).1.store 2 =
      some ⟨2, "", 0, "", "hn", ""⟩ :=
  ⟨⟨by decide, by decide, by decide⟩,
    reconciler_canonical_retention [2] [] 1000000
      ⟨300, [2], [(2, ⟨2, "", 0, "", "hn", ""⟩)]⟩ 2
      ⟨2, "", 0, "", "hn", ""⟩ (by decide) (by decide) (by decide)⟩

end HNTrack
